import Mathlib

/-!
Verification development for the company-analysis tool
(`src/company_analyzer.py`).  The logical core of that program is:

* `get_team_assignment` — a pure function from a collection of sector
  label strings to a team-member string (lines 79–97);
* the JSON extraction inside `analyze_company` — Python `str.find` /
  `str.rfind` / slicing followed by `json.loads`, with a synthesized
  fallback result when extraction fails (lines 122–138), and the outer
  error handler for the outbound request (lines 140–142);
* the session-state logic of the script body — storing `last_analysis`,
  de-duplicated appending to `analysis_history` (lines 207–218), and the
  bounded most-recent-first history display (lines 220–226).

Raw response text is modelled as `List Char`; Python `str.find`,
`str.rfind` and slice semantics (step 1, negative indices, clamping) are
embedded explicitly.  `json.loads` composed with the caller-side
tolerant field reads is modelled as an abstract parameter
`parse : List Char → Option AnalysisResult` (the Python standard
library's JSON parser is external to the repository); every theorem
about the extractor holds for an arbitrary such parser.
-/

/-- First index of `c` in a list, or `none`.  Helper for modelling
Python `str.find` / `str.rfind`. -/
def firstIdx (c : Char) : List Char → Option Nat
  | [] => none
  | x :: xs => if x = c then some 0 else (firstIdx c xs).map (· + 1)

/-- Python `content.find(c)`: index of the first occurrence, `-1` if absent
(`src/company_analyzer.py` line 125). -/
def pyFind (l : List Char) (c : Char) : Int :=
  match firstIdx c l with
  | some i => (i : Int)
  | none => -1

/-- Python `content.rfind(c)`: index of the last occurrence, `-1` if absent
(`src/company_analyzer.py` line 126). -/
def pyRfind (l : List Char) (c : Char) : Int :=
  match firstIdx c l.reverse with
  | some i => (l.length : Int) - 1 - i
  | none => -1

/-- Python slice `l[i:j]` with step 1: negative indices count from the end,
then both bounds are clamped to `[0, len]` (`src/company_analyzer.py`
lines 127 and 223). -/
def pySlice {α : Type*} (l : List α) (i j : Int) : List α :=
  let n : Int := l.length
  let lo := if i < 0 then max (i + n) 0 else min i n
  let hi := if j < 0 then max (j + n) 0 else min j n
  (l.drop lo.toNat).take (hi - lo).toNat

/-- Team assignment from sector labels, `get_team_assignment`
(`src/company_analyzer.py` lines 79–97).  Python's `if not sectors` is the
emptiness test; `set(sectors)` membership and `issubset` checks are list
membership, which coincides with set membership. -/
def get_team_assignment (sectors : List String) : String :=
  if sectors = [] then "To be assigned"
  else if "K-12" ∈ sectors ∧ "Higher Education" ∈ sectors then "Mitch"
  else if "Workforce Learning" ∈ sectors ∧ "Corporate Development" ∈ sectors then "Sam"
  else if "K-12" ∈ sectors ∨ "Higher Education" ∈ sectors then "Mitch"
  else if "Workforce Learning" ∈ sectors ∨ "Corporate Development" ∈ sectors then "Sam"
  else "To be assigned"

/-- Simplified resolver following the spec's words in §4.2's note: the
empty check, then the K-12 / Higher Education membership rule, then the
Workforce Learning / Corporate Development membership rule, then the
default — rules 2 and 3 removed.  Written from the spec for the
refinement claim, to be compared with `get_team_assignment`. -/
def get_team_assignment_simplified (sectors : List String) : String :=
  if sectors = [] then "To be assigned"
  else if "K-12" ∈ sectors ∨ "Higher Education" ∈ sectors then "Mitch"
  else if "Workforce Learning" ∈ sectors ∨ "Corporate Development" ∈ sectors then "Sam"
  else "To be assigned"

/-- The analysis result consumed by the script body.  The parsed JSON
dictionary is read with tolerant `.get` defaults by the caller, so the
abstract parser produces this structure directly; `reasoning` is raw
text, kept as `List Char`. -/
structure AnalysisResult where
  company_name : String
  primary_sectors : List String
  secondary_sectors : List String
  reasoning : List Char
  confidence : String
deriving Repr, DecidableEq

/-- The synthesized fallback result built when JSON extraction fails
(`src/company_analyzer.py` lines 131–138). -/
def fallback_result (company_name : String) (content : List Char) : AnalysisResult :=
  { company_name := company_name
    primary_sectors := ["Other"]
    secondary_sectors := []
    reasoning := content
    confidence := "Low" }

/-- The Result Extractor: the inner `try` block of `analyze_company`
(`src/company_analyzer.py` lines 122–138).  It slices from the first
literal left brace to the last literal right brace (Python
`content.find` / `content.rfind` / `content[start:end]`), hands the
slice to the JSON parser, and falls back to `fallback_result` when
parsing raises. -/
def extract_analysis (parse : List Char → Option AnalysisResult)
    (company_name : String) (content : List Char) : AnalysisResult :=
  let start := pyFind content '{'
  let stop := pyRfind content '}' + 1
  let json_str := pySlice content start stop
  match parse json_str with
  | some analysis => analysis
  | none => fallback_result company_name content

/-- The `analyze_company` boundary (`src/company_analyzer.py` lines
99–142): the outbound request either yields raw text, which goes through
the extractor, or raises, in which case `st.error` shows a message built
from the cause and the function returns `None`.  The returned pair is
(analysis result or none, error message shown or none). -/
def analyze_company (parse : List Char → Option AnalysisResult)
    (company_name : String) (apiResponse : Except String (List Char)) :
    Option AnalysisResult × Option String :=
  match apiResponse with
  | Except.ok content => (some (extract_analysis parse company_name content), none)
  | Except.error e => (none, some ("Error analyzing company: " ++ e))

/-- One entry of `st.session_state.analysis_history`
(`src/company_analyzer.py` lines 213–218). -/
structure HistoryEntry where
  company_name : String
  sectors : List String
  assigned_to : String
  confidence : String
deriving Repr, DecidableEq

/-- Builds the history entry appended for an analysis
(`src/company_analyzer.py` lines 212–218). -/
def mk_history_entry (a : AnalysisResult) : HistoryEntry :=
  let all_sectors := a.primary_sectors ++ a.secondary_sectors
  { company_name := a.company_name
    sectors := all_sectors
    assigned_to := get_team_assignment all_sectors
    confidence := a.confidence }

/-- The de-duplicating history insertion (`src/company_analyzer.py`
lines 209–218): a linear scan for the company name, appending only when
absent. -/
def add_to_history (history : List HistoryEntry) (a : AnalysisResult) : List HistoryEntry :=
  if history.any (fun h => h.company_name == a.company_name) then history
  else history ++ [mk_history_entry a]

/-- The persistent `st.session_state` fields the script body manipulates. -/
structure SessionState where
  analysis_history : List HistoryEntry
  last_analysis : Option AnalysisResult
deriving Repr, DecidableEq

/-- One rerun of the script body for a submit action
(`src/company_analyzer.py` lines 159–218): if the analysis succeeded it
is stored in `last_analysis`; afterwards the history block inserts the
current `last_analysis` (which survives from an earlier rerun when the
present call failed) through the de-duplicating scan. -/
def run_script_step (s : SessionState) (analysisResult : Option AnalysisResult) : SessionState :=
  let last := match analysisResult with
    | some a => some a
    | none => s.last_analysis
  let history := match last with
    | some a => add_to_history s.analysis_history a
    | none => s.analysis_history
  { analysis_history := history, last_analysis := last }

/-- The displayed history (`src/company_analyzer.py` line 223):
`reversed(history[-10:])`, i.e. the Python slice of the last ten entries,
most recent first. -/
def display_history (history : List HistoryEntry) : List HistoryEntry :=
  (pySlice history (-10) history.length).reverse

/-- Invariant relating `last_analysis` to the history: whatever analysis
is stored was already inserted.  Every run of the script body
establishes it (see `run_script_step_last_in_history`). -/
def last_in_history (s : SessionState) : Prop :=
  ∀ a, s.last_analysis = some a →
    s.analysis_history.any (fun h => h.company_name == a.company_name) = true

set_option maxHeartbeats 1000000 in
/-- C1: for every finite collection of sector label strings, the Team
Assignment Resolver returns exactly one team-member string according to
the six precedence rules, first match wins — empty input gives
"To be assigned"; containing both "K-12" and "Higher Education" gives
"Mitch"; else containing both "Workforce Learning" and
"Corporate Development" gives "Sam"; else containing "K-12" or
"Higher Education" gives "Mitch"; else containing "Workforce Learning"
or "Corporate Development" gives "Sam"; else "To be assigned".  Each
conjunct carries the negations of the earlier rules it needs. -/
theorem team_assignment_precedence (s : List String) :
    (s = [] → get_team_assignment s = "To be assigned") ∧
    ("K-12" ∈ s → "Higher Education" ∈ s → get_team_assignment s = "Mitch") ∧
    (¬("K-12" ∈ s ∧ "Higher Education" ∈ s) →
      "Workforce Learning" ∈ s → "Corporate Development" ∈ s →
      get_team_assignment s = "Sam") ∧
    (¬("Workforce Learning" ∈ s ∧ "Corporate Development" ∈ s) →
      ("K-12" ∈ s ∨ "Higher Education" ∈ s) → get_team_assignment s = "Mitch") ∧
    (¬("K-12" ∈ s ∨ "Higher Education" ∈ s) →
      ("Workforce Learning" ∈ s ∨ "Corporate Development" ∈ s) →
      get_team_assignment s = "Sam") ∧
    (¬("K-12" ∈ s ∨ "Higher Education" ∈ s) →
      ¬("Workforce Learning" ∈ s ∨ "Corporate Development" ∈ s) →
      get_team_assignment s = "To be assigned") := by
  have hK : "K-12" ∈ s → s ≠ [] := by rintro hx rfl; exact List.not_mem_nil _ hx
  have hH : "Higher Education" ∈ s → s ≠ [] := by rintro hx rfl; exact List.not_mem_nil _ hx
  have hW : "Workforce Learning" ∈ s → s ≠ [] := by rintro hx rfl; exact List.not_mem_nil _ hx
  have hC : "Corporate Development" ∈ s → s ≠ [] := by
    rintro hx rfl; exact List.not_mem_nil _ hx
  refine ⟨?_, ?_, ?_, ?_, ?_, ?_⟩ <;>
    (intros; unfold get_team_assignment; split_ifs <;> tauto)

/-- Witness for C1: a concrete input exercising rule 4 of the precedence
chain. -/
theorem team_assignment_precedence_witness :
    ¬("Workforce Learning" ∈ (["K-12", "Other"] : List String) ∧
        "Corporate Development" ∈ (["K-12", "Other"] : List String)) ∧
      ("K-12" ∈ (["K-12", "Other"] : List String) ∨
        "Higher Education" ∈ (["K-12", "Other"] : List String)) ∧
      get_team_assignment ["K-12", "Other"] = "Mitch" :=
  ⟨by decide, by decide,
    (team_assignment_precedence ["K-12", "Other"]).2.2.2.1 (by decide) (by decide)⟩

/-- C6: the Team Assignment Resolver is order-independent — permuting
the input collection never changes the result. -/
theorem team_assignment_perm_invariant (s t : List String) (h : s.Perm t) :
    get_team_assignment s = get_team_assignment t := by
  have h1 : ∀ x : String, x ∈ s ↔ x ∈ t := fun x => h.mem_iff
  have h0 : s = [] ↔ t = [] := by
    rw [← List.length_eq_zero, ← List.length_eq_zero, h.length_eq]
  simp only [get_team_assignment, h0, h1]

/-- Witness for C6: swapping the two elements of a concrete input. -/
theorem team_assignment_perm_invariant_witness :
    (["Other", "K-12"] : List String).Perm ["K-12", "Other"] ∧
      get_team_assignment ["Other", "K-12"] = get_team_assignment ["K-12", "Other"] :=
  ⟨List.Perm.swap "K-12" "Other" [],
    team_assignment_perm_invariant _ _ (List.Perm.swap "K-12" "Other" [])⟩

/-- C7 counterexample: rules 2 and 3 are not jointly redundant.  On the
input containing "Higher Education", "Workforce Learning" and
"Corporate Development", rule 3 of the resolver as written fires
(rule 2 does not, since "K-12" is absent) and yields "Sam", while the
simplified resolver with rules 2 and 3 removed reaches the
K-12 / Higher Education membership rule first and yields "Mitch". -/
theorem team_assignment_rules23_counterexample :
    get_team_assignment
        ["Higher Education", "Workforce Learning", "Corporate Development"] = "Sam" ∧
      get_team_assignment_simplified
        ["Higher Education", "Workforce Learning", "Corporate Development"] = "Mitch" ∧
      get_team_assignment
          ["Higher Education", "Workforce Learning", "Corporate Development"] ≠
        get_team_assignment_simplified
          ["Higher Education", "Workforce Learning", "Corporate Development"] := by
  refine ⟨by decide, by decide, by decide⟩

/-- C7 amended: on every input that does not contain both
"Workforce Learning" and "Corporate Development" — that is, whenever
rule 3 cannot fire — the resolver as written agrees with the simplified
resolver with rules 2 and 3 removed.  Rule 2 alone never changes the
outcome there, since any input it matches is matched by rule 4 with the
same result. -/
theorem team_assignment_rules23_redundant_away_from_rule3 (s : List String)
    (h : ¬("Workforce Learning" ∈ s ∧ "Corporate Development" ∈ s)) :
    get_team_assignment s = get_team_assignment_simplified s := by
  unfold get_team_assignment get_team_assignment_simplified
  split_ifs <;> tauto

/-- Witness for the amended C7 theorem at a concrete input. -/
theorem team_assignment_rules23_redundant_witness :
    ¬("Workforce Learning" ∈ (["K-12", "Workforce Learning"] : List String) ∧
        "Corporate Development" ∈ (["K-12", "Workforce Learning"] : List String)) ∧
      get_team_assignment ["K-12", "Workforce Learning"] =
        get_team_assignment_simplified ["K-12", "Workforce Learning"] :=
  ⟨by decide,
    team_assignment_rules23_redundant_away_from_rule3 ["K-12", "Workforce Learning"]
      (by decide)⟩

/-- C10: sector matching is exact, case-sensitive string equality — an
input containing none of the four exact label strings resolves to
"To be assigned". -/
theorem team_assignment_exact_match (s : List String)
    (h1 : "K-12" ∉ s) (h2 : "Higher Education" ∉ s)
    (h3 : "Workforce Learning" ∉ s) (h4 : "Corporate Development" ∉ s) :
    get_team_assignment s = "To be assigned" := by
  unfold get_team_assignment
  split_ifs <;> tauto

/-- Witness for C10: a lowercase label is not matched. -/
theorem team_assignment_exact_match_witness :
    "K-12" ∉ (["k-12"] : List String) ∧
      "Higher Education" ∉ (["k-12"] : List String) ∧
      "Workforce Learning" ∉ (["k-12"] : List String) ∧
      "Corporate Development" ∉ (["k-12"] : List String) ∧
      get_team_assignment ["k-12"] = "To be assigned" :=
  ⟨by decide, by decide, by decide, by decide,
    team_assignment_exact_match ["k-12"] (by decide) (by decide) (by decide) (by decide)⟩

theorem firstIdx_eq_none_iff (c : Char) (l : List Char) :
    firstIdx c l = none ↔ c ∉ l := by
  induction l with
  | nil => simp [firstIdx]
  | cons x xs ih =>
    by_cases h : x = c
    · subst h; simp [firstIdx]
    · simp only [firstIdx, if_neg h, Option.map_eq_none', ih, List.mem_cons]
      constructor
      · rintro hm (rfl | hx)
        · exact h rfl
        · exact hm hx
      · intro hm hx; exact hm (Or.inr hx)

theorem firstIdx_append_of_not_mem (c : Char) (l₁ l₂ : List Char) (h : c ∉ l₁) :
    firstIdx c (l₁ ++ l₂) = (firstIdx c l₂).map (· + l₁.length) := by
  induction l₁ with
  | nil =>
    simp only [List.nil_append, List.length_nil]
    cases h2 : firstIdx c l₂ <;> simp
  | cons x xs ih =>
    have hx : x ≠ c := by rintro rfl; exact h (List.mem_cons_self _ _)
    have hm : c ∉ xs := fun hc => h (List.mem_cons_of_mem _ hc)
    rw [List.cons_append]
    show (if x = c then some 0 else (firstIdx c (xs ++ l₂)).map (· + 1)) = _
    rw [if_neg hx, ih hm]
    cases h2 : firstIdx c l₂ <;> simp [Nat.add_assoc]

theorem firstIdx_lt_length (c : Char) (l : List Char) (i : Nat)
    (h : firstIdx c l = some i) : i < l.length := by
  induction l generalizing i with
  | nil => simp [firstIdx] at h
  | cons x xs ih =>
    by_cases hx : x = c
    · subst hx; simp [firstIdx] at h
      simp only [List.length_cons]
      omega
    · simp only [firstIdx, if_neg hx, Option.map_eq_some'] at h
      obtain ⟨j, hj, rfl⟩ := h
      have := ih j hj
      simp only [List.length_cons]
      omega

theorem head_eq_of_firstIdx_zero (c : Char) (l : List Char)
    (h : firstIdx c l = some 0) : l.head? = some c := by
  cases l with
  | nil => simp [firstIdx] at h
  | cons x xs =>
    by_cases hx : x = c
    · subst hx; rfl
    · simp only [firstIdx, if_neg hx, Option.map_eq_some'] at h
      obtain ⟨j, _, hj⟩ := h
      omega

theorem drop_length_sub_one {α : Type*} (l : List α) (h : l ≠ []) :
    ∃ x, l.getLast? = some x ∧ l.drop (l.length - 1) = [x] := by
  induction l with
  | nil => cases h rfl
  | cons x xs ih =>
    cases xs with
    | nil => exact ⟨x, rfl, rfl⟩
    | cons y ys =>
      obtain ⟨z, hz1, hz2⟩ := ih (by simp)
      refine ⟨z, ?_, ?_⟩
      · rw [List.getLast?_cons_cons]; exact hz1
      · have hlen : (x :: y :: ys).length - 1 = ((y :: ys).length - 1) + 1 := by
          simp [List.length_cons]
        rw [hlen, List.drop_succ_cons]
        exact hz2

theorem pyFind_eq_neg_one_iff (l : List Char) (c : Char) :
    pyFind l c = -1 ↔ c ∉ l := by
  rw [← firstIdx_eq_none_iff c l]
  unfold pyFind
  cases h : firstIdx c l with
  | none => simp
  | some i => simp

theorem pyRfind_eq_neg_one_iff (l : List Char) (c : Char) :
    pyRfind l c = -1 ↔ c ∉ l := by
  have hrev : (c ∉ l) ↔ (c ∉ l.reverse) := by simp
  rw [hrev, ← firstIdx_eq_none_iff c l.reverse]
  unfold pyRfind
  cases h : firstIdx c l.reverse with
  | none => simp
  | some i =>
    have hi := firstIdx_lt_length c l.reverse i h
    simp only [List.length_reverse] at hi
    simp only [h]
    constructor
    · intro he
      exfalso
      omega
    · intro he
      exact absurd he (by simp)

theorem pyFind_append (c : Char) (pre j suf : List Char) (hpre : c ∉ pre)
    (hj : j.head? = some c) :
    pyFind (pre ++ j ++ suf) c = (pre.length : Int) := by
  obtain ⟨t, rfl⟩ : ∃ t, j = c :: t := by
    cases j with
    | nil => simp at hj
    | cons a t =>
      simp only [List.head?_cons, Option.some_inj] at hj
      exact ⟨t, by rw [hj]⟩
  have hshape : pre ++ (c :: t) ++ suf = pre ++ (c :: (t ++ suf)) := by simp
  rw [hshape]
  unfold pyFind
  rw [firstIdx_append_of_not_mem c pre _ hpre]
  have hhead : firstIdx c (c :: (t ++ suf)) = some 0 := by simp [firstIdx]
  rw [hhead]
  simp

theorem pyRfind_append (c : Char) (pre j suf : List Char) (hsuf : c ∉ suf)
    (hj : j.getLast? = some c) :
    pyRfind (pre ++ j ++ suf) c = (pre.length : Int) + j.length - 1 := by
  have hrev : (pre ++ j ++ suf).reverse = suf.reverse ++ (j.reverse ++ pre.reverse) := by
    simp [List.reverse_append]
  have hjr : j.reverse.head? = some c := by rw [List.head?_reverse]; exact hj
  obtain ⟨t, ht⟩ : ∃ t, j.reverse = c :: t := by
    cases hr : j.reverse with
    | nil => rw [hr] at hjr; simp at hjr
    | cons a t =>
      rw [hr] at hjr
      simp only [List.head?_cons, Option.some_inj] at hjr
      exact ⟨t, by rw [hjr]⟩
  have hsr : c ∉ suf.reverse := by simpa using hsuf
  have hfi : firstIdx c ((pre ++ j ++ suf).reverse) = some suf.length := by
    rw [hrev, firstIdx_append_of_not_mem c _ _ hsr, ht]
    have hhead : firstIdx c ((c :: t) ++ pre.reverse) = some 0 := by
      simp [firstIdx]
    rw [hhead]
    simp
  unfold pyRfind
  simp only [hfi, List.length_append]
  push_cast
  ring

theorem pySlice_middle {α : Type*} (pre j suf : List α) :
    pySlice (pre ++ j ++ suf) (pre.length : Int) ((pre.length : Int) + j.length) = j := by
  simp only [pySlice, List.length_append]
  push_cast
  have hp : ¬((pre.length : Int) < 0) := by omega
  have hq : ¬((pre.length : Int) + (j.length : Int) < 0) := by omega
  rw [if_neg hp, if_neg hq]
  have e1 : (min (pre.length : Int) ((pre.length : Int) + j.length + suf.length)).toNat
      = pre.length := by omega
  have e2 : ((min ((pre.length : Int) + j.length)
        ((pre.length : Int) + j.length + suf.length)) -
      (min (pre.length : Int) ((pre.length : Int) + j.length + suf.length))).toNat
      = j.length := by omega
  rw [e1, e2, List.append_assoc, List.drop_left, List.take_left]

/-- C3: for every raw response text consisting of a valid JSON object
surrounded by brace-free prose, the Result Extractor slices the span
from the first left brace to the last right brace — exactly the object's
text — and returns the parsed object with its content unchanged,
ignoring the surrounding prose.  The JSON object text `j` starts with a
left brace and ends with a right brace, and `parse` stands for an
arbitrary JSON parser that accepts it. -/
theorem extractor_round_trip
    (parse : List Char → Option AnalysisResult) (company_name : String)
    (pre j suf : List Char) (a : AnalysisResult)
    (hpre1 : '{' ∉ pre) (_hpre2 : '}' ∉ pre)
    (_hsuf1 : '{' ∉ suf) (hsuf2 : '}' ∉ suf)
    (hj1 : j.head? = some '{') (hj2 : j.getLast? = some '}')
    (hparse : parse j = some a) :
    pySlice (pre ++ j ++ suf) (pyFind (pre ++ j ++ suf) '{')
        (pyRfind (pre ++ j ++ suf) '}' + 1) = j ∧
      extract_analysis parse company_name (pre ++ j ++ suf) = a := by
  have hf := pyFind_append '{' pre j suf hpre1 hj1
  have hr := pyRfind_append '}' pre j suf hsuf2 hj2
  have hslice : pySlice (pre ++ j ++ suf) (pyFind (pre ++ j ++ suf) '{')
      (pyRfind (pre ++ j ++ suf) '}' + 1) = j := by
    rw [hf, hr]
    have he : ((pre.length : Int) + j.length - 1 + 1) = (pre.length : Int) + j.length := by
      ring
    rw [he]
    exact pySlice_middle pre j suf
  refine ⟨hslice, ?_⟩
  unfold extract_analysis
  simp only [hslice, hparse]

/-- Witness for C3: a concrete three-character object between brace-free
text, with a parser that accepts exactly that object. -/
theorem extractor_round_trip_witness :
    (fun s => if s = ['{', 'x', '}'] then
        some (AnalysisResult.mk "Acme" ["K-12"] [] ['x'] "High") else none)
        ['{', 'x', '}'] =
      some (AnalysisResult.mk "Acme" ["K-12"] [] ['x'] "High") ∧
      extract_analysis
        (fun s => if s = ['{', 'x', '}'] then
          some (AnalysisResult.mk "Acme" ["K-12"] [] ['x'] "High") else none)
        "Acme" ("pre ".toList ++ ['{', 'x', '}'] ++ " post".toList) =
        AnalysisResult.mk "Acme" ["K-12"] [] ['x'] "High" :=
  ⟨by decide,
    (extractor_round_trip _ "Acme" "pre ".toList ['{', 'x', '}'] " post".toList _
      (by decide) (by decide) (by decide) (by decide) (by decide) (by decide)
      (by decide)).2⟩

theorem pySlice_stop_zero {α : Type*} (l : List α) (i : Int) : pySlice l i 0 = [] := by
  simp only [pySlice]
  have hlo : 0 ≤ if i < 0 then max (i + (l.length : Int)) 0 else min i (l.length : Int) := by
    split_ifs with hh
    · exact le_max_right _ _
    · exact le_min (le_of_not_lt hh) (Int.natCast_nonneg _)
  have h0 : (if (0 : Int) < 0 then max (0 + (l.length : Int)) 0
      else min 0 (l.length : Int)) = 0 := by
    rw [if_neg (lt_irrefl 0)]
    exact min_eq_left (Int.natCast_nonneg _)
  rw [h0]
  have ht : ((0 : Int) -
      (if i < 0 then max (i + (l.length : Int)) 0 else min i (l.length : Int))).toNat
      = 0 := by omega
  rw [ht, List.take_zero]

theorem pySlice_no_open_brace (content : List Char) (h : '{' ∉ content) :
    pySlice content (pyFind content '{') (pyRfind content '}' + 1) = [] ∨
      pySlice content (pyFind content '{') (pyRfind content '}' + 1) = ['}'] := by
  by_cases hm : '}' ∈ content
  case neg =>
    left
    have hr : pyRfind content '}' + 1 = 0 := by
      rw [(pyRfind_eq_neg_one_iff content '}').mpr hm]; ring
    rw [hr]
    exact pySlice_stop_zero content _
  case pos =>
    have hf : pyFind content '{' = -1 := (pyFind_eq_neg_one_iff content '{').mpr h
    have hne : content ≠ [] := by rintro rfl; simp at hm
    obtain ⟨x, hx1, hx2⟩ := drop_length_sub_one content hne
    obtain ⟨i0, hi0⟩ : ∃ i0, firstIdx '}' content.reverse = some i0 := by
      cases hh : firstIdx '}' content.reverse with
      | none =>
        exfalso
        have hnm := (firstIdx_eq_none_iff '}' content.reverse).mp hh
        exact hnm (List.mem_reverse.mpr hm)
      | some k => exact ⟨k, rfl⟩
    have hi0lt : i0 < content.length := by
      have := firstIdx_lt_length '}' content.reverse i0 hi0
      simpa using this
    have hrv : pyRfind content '}' = (content.length : Int) - 1 - i0 := by
      unfold pyRfind
      simp only [hi0]
    have hn1 : 1 ≤ content.length := by
      cases content with
      | nil => exact absurd rfl hne
      | cons y ys => simp
    rw [hf, hrv]
    by_cases hz : i0 = 0
    · subst hz
      right
      have hx3 : x = '}' := by
        have hh := head_eq_of_firstIdx_zero '}' content.reverse hi0
        rw [List.head?_reverse, hx1] at hh
        exact (Option.some_inj.mp hh)
      subst hx3
      simp only [pySlice]
      rw [if_pos (by norm_num : (-1 : Int) < 0)]
      have hstopnn : ¬(((content.length : Int) - 1 - (0 : Nat) + 1) < 0) := by
        push_cast
        omega
      rw [if_neg hstopnn]
      have e1 : (max (-1 + (content.length : Int)) 0).toNat = content.length - 1 := by
        omega
      have e2 : ((min ((content.length : Int) - 1 - (0 : Nat) + 1) (content.length : Int)) -
          max (-1 + (content.length : Int)) 0).toNat = 1 := by
        push_cast
        omega
      rw [e1, e2, hx2]
      rfl
    · left
      simp only [pySlice]
      rw [if_pos (by norm_num : (-1 : Int) < 0)]
      have hstopnn : ¬(((content.length : Int) - 1 - (i0 : Int) + 1) < 0) := by omega
      rw [if_neg hstopnn]
      have e2 : ((min ((content.length : Int) - 1 - (i0 : Int) + 1) (content.length : Int)) -
          max (-1 + (content.length : Int)) 0).toNat = 0 := by omega
      rw [e2, List.take_zero]

/-- C2: for every raw response text in which no left/right brace pair is
found, or in which the sliced brace span fails to parse as JSON, the
Result Extractor returns the synthesized fallback result — primary
sectors ["Other"], no secondary sectors, reasoning equal to the full raw
text, confidence "Low" — and this total function never fails or
propagates an error.  When a brace is missing, the sliced span is the
empty text or the single right brace, neither of which any JSON parser
accepts; the two `hdeg` hypotheses record that about `parse`. -/
theorem extractor_fallback (parse : List Char → Option AnalysisResult)
    (company_name : String) (content : List Char)
    (hdeg0 : parse [] = none) (hdeg1 : parse ['}'] = none)
    (h : '{' ∉ content ∨ '}' ∉ content ∨
      parse (pySlice content (pyFind content '{') (pyRfind content '}' + 1)) = none) :
    extract_analysis parse company_name content = fallback_result company_name content := by
  have hnone : parse (pySlice content (pyFind content '{')
      (pyRfind content '}' + 1)) = none := by
    rcases h with h | h | h
    · rcases pySlice_no_open_brace content h with hs | hs <;> rw [hs] <;> assumption
    · have hr : pyRfind content '}' + 1 = 0 := by
        rw [(pyRfind_eq_neg_one_iff content '}').mpr h]; ring
      rw [hr, pySlice_stop_zero]
      exact hdeg0
    · exact h
  unfold extract_analysis
  simp only [hnone]

/-- Witness for C2: the spec's own example, raw text "no braces here"
with a parser that rejects everything. -/
theorem extractor_fallback_witness :
    (fun _ : List Char => (none : Option AnalysisResult)) [] = none ∧
      ('{' ∉ "no braces here".toList ∨ '}' ∉ "no braces here".toList ∨
        (fun _ : List Char => (none : Option AnalysisResult))
          (pySlice "no braces here".toList (pyFind "no braces here".toList '{')
            (pyRfind "no braces here".toList '}' + 1)) = none) ∧
      extract_analysis (fun _ => none) "Acme" "no braces here".toList =
        fallback_result "Acme" "no braces here".toList :=
  ⟨rfl, Or.inl (by decide),
    extractor_fallback (fun _ => none) "Acme" "no braces here".toList rfl rfl
      (Or.inl (by decide))⟩

/-- C9: whenever JSON extraction fails and the fallback is produced, its
company_name field is the name supplied to `analyze_company` by the
caller, not anything taken from the raw text. -/
theorem fallback_company_name (parse : List Char → Option AnalysisResult)
    (company_name : String) (content : List Char)
    (h : parse (pySlice content (pyFind content '{')
      (pyRfind content '}' + 1)) = none) :
    (extract_analysis parse company_name content).company_name = company_name := by
  unfold extract_analysis
  simp only [h]
  rfl

/-- Witness for C9: raw text mentioning a different name, with a parser
that rejects everything; the fallback still carries the caller's name. -/
theorem fallback_company_name_witness :
    (fun _ : List Char => (none : Option AnalysisResult))
        (pySlice "Globex".toList (pyFind "Globex".toList '{')
          (pyRfind "Globex".toList '}' + 1)) = none ∧
      (extract_analysis (fun _ => none) "Acme" "Globex".toList).company_name = "Acme" :=
  ⟨rfl, fallback_company_name (fun _ => none) "Acme" "Globex".toList rfl⟩

theorem add_to_history_pairwise (history : List HistoryEntry) (a : AnalysisResult)
    (h : history.Pairwise (fun h₁ h₂ => h₁.company_name ≠ h₂.company_name)) :
    (add_to_history history a).Pairwise
      (fun h₁ h₂ => h₁.company_name ≠ h₂.company_name) := by
  unfold add_to_history
  split_ifs with hany
  · exact h
  · rw [List.pairwise_append]
    refine ⟨h, List.pairwise_singleton _ _, ?_⟩
    intro x hx y hy
    simp only [List.mem_singleton] at hy
    subst hy
    intro hcontra
    apply hany
    rw [List.any_eq_true]
    refine ⟨x, hx, ?_⟩
    rw [beq_iff_eq]
    exact hcontra

theorem run_script_step_pairwise (s : SessionState) (o : Option AnalysisResult)
    (h : s.analysis_history.Pairwise (fun h₁ h₂ => h₁.company_name ≠ h₂.company_name)) :
    (run_script_step s o).analysis_history.Pairwise
      (fun h₁ h₂ => h₁.company_name ≠ h₂.company_name) := by
  unfold run_script_step
  cases o with
  | some a => exact add_to_history_pairwise _ _ h
  | none =>
    cases hl : s.last_analysis with
    | some a => simp only [hl]; exact add_to_history_pairwise _ _ h
    | none => simp only [hl]; exact h

theorem countP_name_le_one (l : List HistoryEntry) (n : String)
    (h : l.Pairwise (fun h₁ h₂ => h₁.company_name ≠ h₂.company_name)) :
    l.countP (fun e => e.company_name == n) ≤ 1 := by
  induction l with
  | nil => simp
  | cons x xs ih =>
    rw [List.pairwise_cons] at h
    obtain ⟨hx, hxs⟩ := h
    rw [List.countP_cons]
    by_cases hp : (x.company_name == n) = true
    · have hz : xs.countP (fun e => e.company_name == n) = 0 := by
        rw [List.countP_eq_zero]
        intro y hy hc
        rw [beq_iff_eq] at hp hc
        exact hx y hy (hp.trans hc.symm)
      simp [hz, hp]
    · rw [if_neg hp]
      have := ih hxs
      omega

/-- C4: submitting the same company_name twice in one session yields
exactly one HistoryEntry for that name, and after every history
insertion the History Store never contains two entries with the same
company_name.  The first conjunct is the invariant over every session
reachable from the empty store by any sequence of script reruns; the
second states that after one more rerun whose analysis is `a`, exactly
one entry carries `a`'s company name. -/
theorem history_dedup (actions : List (Option AnalysisResult)) (a : AnalysisResult) :
    ((actions.foldl run_script_step ⟨[], none⟩).analysis_history).Pairwise
      (fun h₁ h₂ => h₁.company_name ≠ h₂.company_name) ∧
      (((actions ++ [some a]).foldl run_script_step ⟨[], none⟩).analysis_history).countP
        (fun e => e.company_name == a.company_name) = 1 := by
  have hpw : ∀ acts : List (Option AnalysisResult),
      ((acts.foldl run_script_step ⟨[], none⟩).analysis_history).Pairwise
        (fun h₁ h₂ => h₁.company_name ≠ h₂.company_name) := by
    intro acts
    have hgen : ∀ s : SessionState,
        s.analysis_history.Pairwise (fun h₁ h₂ => h₁.company_name ≠ h₂.company_name) →
        ((acts.foldl run_script_step s).analysis_history).Pairwise
          (fun h₁ h₂ => h₁.company_name ≠ h₂.company_name) := by
      induction acts with
      | nil => intro s hs; exact hs
      | cons o os ih => intro s hs; exact ih _ (run_script_step_pairwise s o hs)
    exact hgen ⟨[], none⟩ (by simp)
  refine ⟨hpw actions, ?_⟩
  rw [List.foldl_append, List.foldl_cons, List.foldl_nil]
  have hs' := hpw actions
  show ((add_to_history (actions.foldl run_script_step ⟨[], none⟩).analysis_history
      a).countP (fun e => e.company_name == a.company_name)) = 1
  unfold add_to_history
  split_ifs with hany
  · have hle := countP_name_le_one _ a.company_name hs'
    have hpos : 0 < ((actions.foldl run_script_step ⟨[], none⟩).analysis_history).countP
        (fun e => e.company_name == a.company_name) := by
      rw [List.countP_pos_iff]
      rw [List.any_eq_true] at hany
      exact hany
    omega
  · rw [List.countP_append]
    have hz : ((actions.foldl run_script_step ⟨[], none⟩).analysis_history).countP
        (fun e => e.company_name == a.company_name) = 0 := by
      rw [List.countP_eq_zero]
      intro x hx hc
      exact hany (List.any_eq_true.mpr ⟨x, hx, hc⟩)
    rw [hz]
    simp [mk_history_entry]

/-- C5: for every history list containing more than 10 entries, the
displayed history is exactly the 10 most recently appended entries in
most-recent-first order — the first 10 elements of the reversed list —
and has length exactly 10. -/
theorem display_history_last_ten (history : List HistoryEntry)
    (h : 10 < history.length) :
    display_history history = history.reverse.take 10 ∧
      (display_history history).length = 10 := by
  have hslice : pySlice history (-10) history.length =
      history.drop (history.length - 10) := by
    simp only [pySlice]
    rw [if_pos (by norm_num : (-10 : Int) < 0)]
    rw [if_neg (by omega : ¬((history.length : Int) < 0))]
    have e1 : (max (-10 + (history.length : Int)) 0).toNat = history.length - 10 := by
      omega
    have e2 : ((min (history.length : Int) (history.length : Int)) -
        max (-10 + (history.length : Int)) 0).toNat = 10 := by
      omega
    rw [e1, e2]
    apply List.take_of_length_le
    rw [List.length_drop]
    omega
  unfold display_history
  rw [hslice]
  constructor
  · rw [List.reverse_drop]
    congr 1
    omega
  · rw [List.length_reverse, List.length_drop]
    omega

/-- Witness for C5: a history of 11 identical entries displays its 10
most recent. -/
theorem display_history_last_ten_witness :
    10 < (List.replicate 11 (HistoryEntry.mk "A" [] "To be assigned" "Medium")).length ∧
      display_history (List.replicate 11 (HistoryEntry.mk "A" [] "To be assigned" "Medium")) =
        (List.replicate 11 (HistoryEntry.mk "A" [] "To be assigned" "Medium")).reverse.take 10 ∧
      (display_history
        (List.replicate 11 (HistoryEntry.mk "A" [] "To be assigned" "Medium"))).length = 10 :=
  ⟨by simp,
    (display_history_last_ten _ (by simp)).1,
    (display_history_last_ten _ (by simp)).2⟩

theorem run_script_step_some (s : SessionState) (b : AnalysisResult) :
    run_script_step s (some b) =
      ⟨add_to_history s.analysis_history b, some b⟩ := rfl

theorem run_script_step_none_none (s : SessionState) (h : s.last_analysis = none) :
    run_script_step s none = ⟨s.analysis_history, none⟩ := by
  simp [run_script_step, h]

theorem run_script_step_none_some (s : SessionState) (b : AnalysisResult)
    (h : s.last_analysis = some b) :
    run_script_step s none = ⟨add_to_history s.analysis_history b, some b⟩ := by
  simp [run_script_step, h]

theorem mem_add_to_history (history : List HistoryEntry) (a : AnalysisResult) :
    ((add_to_history history a).any
      (fun h => h.company_name == a.company_name)) = true := by
  unfold add_to_history
  split_ifs with hany
  · exact hany
  · rw [List.any_append]
    simp [mk_history_entry]

/-- Every script rerun re-establishes the invariant that the stored
`last_analysis` has an entry in the history: the history block inserts
it on the same rerun that stores it. -/
theorem run_script_step_last_in_history (s : SessionState) (o : Option AnalysisResult) :
    last_in_history (run_script_step s o) := by
  intro a ha
  cases o with
  | some b =>
    rw [run_script_step_some] at ha ⊢
    simp only [Option.some_inj] at ha
    subst ha
    exact mem_add_to_history s.analysis_history _
  | none =>
    cases hl : s.last_analysis with
    | none =>
      rw [run_script_step_none_none s hl] at ha
      exact absurd ha (by simp)
    | some b =>
      rw [run_script_step_none_some s b hl] at ha ⊢
      simp only [Option.some_inj] at ha
      subst ha
      exact mem_add_to_history s.analysis_history _

/-- C8: when the outbound analysis call fails with cause `e`, the
analysis is treated as not performed — the user-visible error message is
the string "Error analyzing company: " followed by the cause, so it
contains the cause as a suffix, and the subsequent script rerun leaves
the History Store unchanged.  The hypothesis is the session invariant
that the surviving `last_analysis`, if any, is already recorded in the
history (every rerun establishes it, `run_script_step_last_in_history`). -/
theorem request_error_no_history (parse : List Char → Option AnalysisResult)
    (company_name e : String) (s : SessionState) (hs : last_in_history s) :
    (analyze_company parse company_name (Except.error e)).2 =
        some ("Error analyzing company: " ++ e) ∧
      e.toList.IsSuffix ("Error analyzing company: " ++ e).toList ∧
      (run_script_step s
        (analyze_company parse company_name (Except.error e)).1).analysis_history =
        s.analysis_history := by
  refine ⟨rfl, ⟨"Error analyzing company: ".toList, by simp⟩, ?_⟩
  show (run_script_step s none).analysis_history = s.analysis_history
  cases hl : s.last_analysis with
  | none => rw [run_script_step_none_none s hl]
  | some a =>
    rw [run_script_step_none_some s a hl]
    show add_to_history s.analysis_history a = s.analysis_history
    unfold add_to_history
    rw [if_pos (hs a hl)]

/-- Witness for C8: the fresh session state with no stored analysis and
an empty history; a failing call shows the cause and adds nothing. -/
theorem request_error_no_history_witness :
    last_in_history ⟨[], none⟩ ∧
      ((analyze_company (fun _ => none) "Acme" (Except.error "boom")).2 =
          some ("Error analyzing company: " ++ "boom") ∧
        "boom".toList.IsSuffix ("Error analyzing company: " ++ "boom").toList ∧
        (run_script_step ⟨[], none⟩
          (analyze_company (fun _ => none) "Acme" (Except.error "boom")).1).analysis_history =
          (⟨[], none⟩ : SessionState).analysis_history) :=
  ⟨(by intro a h; simp at h),
    request_error_no_history (fun _ => none) "Acme" "boom" ⟨[], none⟩
      (by intro a h; simp at h)⟩
